import Mathlib

/-!
Verification of the adonisjs-server-stats metrics and log components.

The development shallowly embeds the TypeScript sources:
- `src/collectors/log_collector.ts` (module-level shared log stream state),
- the queue / db-pool / app collectors (failure handling of `collect()`),
- `src/react/types.ts` (`useServerStats` history buffer),
- `src/define_config.ts` (`defineConfig`),
and models the LogStreamService window / tail logic and the
MetricsScheduler tick loop from the specification where the
corresponding source files are not part of the provided sources.
-/

set_option maxHeartbeats 1000000

/-- Log severities of the Pino log format consumed by the log stream
(spec: enum of trace, debug, info, warn, error, fatal). -/
inductive Severity
  | trace
  | debug
  | info
  | warn
  | error
  | fatal
deriving DecidableEq, Repr

/-- A parsed log line: a millisecond epoch timestamp (`time` field) and a
severity (`level` field). -/
structure LogEvent where
  time : Int
  level : Severity
deriving DecidableEq, Repr

/-- The five-minute retention window, in milliseconds. -/
def windowMs : Int := 300000

/-- True on the severities counted as errors (`error` and `fatal`). -/
def isErrorLevel : Severity → Bool
  | .error => true
  | .fatal => true
  | _ => false

/-- True on the severity counted as a warning (`warn`). -/
def isWarnLevel : Severity → Bool
  | .warn => true
  | _ => false

/-- Modelled from the spec: the prune step of the LogStreamService window
(the service source file is not among the provided sources). An event is
retained exactly when `now - timestamp <= 300000`. -/
def pruneWindow (now : Int) (w : List LogEvent) : List LogEvent :=
  w.filter fun e => decide (now - e.time ≤ windowMs)

/-- The statistics record returned by `getLogStats()`. -/
structure LogStats where
  errorsLast5m : Nat
  warningsLast5m : Nat
  entriesLast5m : Nat
  entriesPerMinute : Rat
deriving DecidableEq, Repr

/-- Modelled from the spec: `getLogStats()` prunes the window at the query
time and then counts over the pruned window; the per-minute rate is the
five-minute entry count divided by 5. -/
def getLogStats (now : Int) (w : List LogEvent) : LogStats :=
  let pruned := pruneWindow now w
  { errorsLast5m := (pruned.filter fun e => isErrorLevel e.level).length
    warningsLast5m := (pruned.filter fun e => isWarnLevel e.level).length
    entriesLast5m := pruned.length
    entriesPerMinute := (pruned.length : Rat) / 5 }

/-! ### Collectors embedded from the sources (queue, db pool, app) -/

/-- The BullMQ job counts object; each count may be absent
(the source reads `counts.active ?? 0` and so on). -/
structure QueueCounts where
  active : Option Nat
  waiting : Option Nat
  delayed : Option Nat
  failed : Option Nat
deriving DecidableEq, Repr

/-- Outcome of the queue collector's interaction with BullMQ: either the
counts and the worker list length, or any internal failure (import error,
connection error, query throwing) caught by the `try` block. -/
inductive QueueFetchResult
  | ok (counts : QueueCounts) (workers : Nat)
  | failure
deriving DecidableEq, Repr

namespace queueCollector

/-- `queueCollector(...).collect()` from the source: on success it reports
the four job counts (absent counts default to 0) and the worker count; on
any caught failure it returns the all-zero fragment with the same keys. -/
def collect : QueueFetchResult → List (String × Nat)
  | .ok counts workers =>
      [("queueActive", counts.active.getD 0),
       ("queueWaiting", counts.waiting.getD 0),
       ("queueDelayed", counts.delayed.getD 0),
       ("queueFailed", counts.failed.getD 0),
       ("queueWorkerCount", workers)]
  | .failure =>
      [("queueActive", 0),
       ("queueWaiting", 0),
       ("queueDelayed", 0),
       ("queueFailed", 0),
       ("queueWorkerCount", 0)]

end queueCollector

/-- Outcome of the db-pool collector's interaction with Lucid: the import
may throw (`failure`), the connection may be missing, the pool may be
missing, or the pool is available with its four (optional) gauges. -/
inductive DbPoolFetchResult
  | failure
  | noConnection
  | noPool
  | ok (numUsed numFree numPendingAcquires max : Option Nat)
deriving DecidableEq, Repr

namespace dbPoolCollector

/-- `dbPoolCollector(...).collect()` from the source: each of the three
failure paths (caught exception, missing connection, missing pool) returns
the all-zero fragment; the success path reads the pool gauges with a 0
default for absent readings. -/
def collect : DbPoolFetchResult → List (String × Nat)
  | .failure =>
      [("dbPoolUsed", 0), ("dbPoolFree", 0), ("dbPoolPending", 0), ("dbPoolMax", 0)]
  | .noConnection =>
      [("dbPoolUsed", 0), ("dbPoolFree", 0), ("dbPoolPending", 0), ("dbPoolMax", 0)]
  | .noPool =>
      [("dbPoolUsed", 0), ("dbPoolFree", 0), ("dbPoolPending", 0), ("dbPoolMax", 0)]
  | .ok numUsed numFree numPendingAcquires max =>
      [("dbPoolUsed", numUsed.getD 0),
       ("dbPoolFree", numFree.getD 0),
       ("dbPoolPending", numPendingAcquires.getD 0),
       ("dbPoolMax", max.getD 0)]

end dbPoolCollector

/-- Outcome of the app collector's queries: either the three resolved
counts (the inner per-query catches already defaulted the two optional
tables to 0), or a caught failure of the whole block. -/
inductive AppFetchResult
  | ok (sessions webhooks emails : Nat)
  | failure
deriving DecidableEq, Repr

namespace appCollector

/-- `appCollector().collect()` from the source: reports the three table
counts, or the all-zero fragment when the surrounding `try` catches. -/
def collect : AppFetchResult → List (String × Nat)
  | .ok sessions webhooks emails =>
      [("onlineUsers", sessions), ("pendingWebhooks", webhooks), ("pendingEmails", emails)]
  | .failure =>
      [("onlineUsers", 0), ("pendingWebhooks", 0), ("pendingEmails", 0)]

end appCollector

/-! ### Module state of `log_collector.ts` -/

/-- A LogStreamService instance; `id` distinguishes distinct instances
created by successive `logCollector()` calls, `logPath` is the constructor
argument. -/
structure LogStreamService where
  id : Nat
  logPath : String
deriving DecidableEq, Repr

/-- The module-level state of `log_collector.ts`: the next fresh instance
identity and the `sharedLogStream` module variable (initially `null`). -/
structure LogModuleState where
  nextId : Nat
  sharedLogStream : Option LogStreamService
deriving DecidableEq, Repr

/-- `getLogStreamService()` from the source: returns the current value of
the module-level `sharedLogStream` variable. -/
def getLogStreamService (st : LogModuleState) : Option LogStreamService :=
  st.sharedLogStream

/-- One `logCollector(opts)` call from the source: constructs a fresh
`LogStreamService` for `opts.logPath` and overwrites the module-level
`sharedLogStream` variable with it. -/
def logCollectorCall (logPath : String) (st : LogModuleState) : LogModuleState :=
  { nextId := st.nextId + 1
    sharedLogStream := some { id := st.nextId, logPath := logPath } }

/-- A sequence of `logCollector()` calls, applied in order. -/
def runLogCollectorCalls (st : LogModuleState) (paths : List String) : LogModuleState :=
  paths.foldl (fun s p => logCollectorCall p s) st

/-! ### `useServerStats` history buffer from `src/react/types.ts` -/

/-- `pushHistory` from the source hook: append the snapshot, then drop the
oldest entry when the buffer exceeds `maxHistory`
(`h.push(s); if (h.length > maxHistory) h.shift()`). -/
def pushHistory {α : Type} (maxHistory : Nat) (h : List α) (s : α) : List α :=
  let h2 := h ++ [s]
  if maxHistory < h2.length then h2.tail else h2

/-- The history buffer produced by delivering the snapshots `xs` in order
to `pushHistory`, starting from the empty buffer. -/
def runHistory {α : Type} (maxHistory : Nat) (xs : List α) : List α :=
  xs.foldl (pushHistory maxHistory) []

/-! ### Tail-cursor model of the log stream poll -/

/-- Modelled from the spec: splitting newly read bytes on line
boundaries. Returns the complete (terminator-ended) lines, without their
terminators, and the trailing fragment that has no terminator yet. -/
def splitComplete : List Char → List (List Char) × List Char
  | [] => ([], [])
  | c :: rest =>
    let r := splitComplete rest
    if c = '\n' then ([] :: r.1, r.2)
    else
      match r.1 with
      | [] => ([], c :: r.2)
      | l :: ls => ((c :: l) :: ls, r.2)

/-- Modelled from the spec: one poll of the tail cursor at byte offset
`off` over the file contents `file`. It reads the bytes from `off` on,
extracts the complete lines, and advances the offset past the consumed
complete lines only, leaving the trailing fragment unconsumed. -/
def poll (file : List Char) (off : Nat) : List (List Char) × Nat :=
  let r := splitComplete (file.drop off)
  (r.1, file.length - r.2.length)

/-- The tail cursor from the spec: consumed byte offset and the last
observed file size. -/
structure TailCursor where
  byteOffset : Nat
  lastKnownSize : Nat
deriving DecidableEq, Repr

/-- Modelled from the spec: a poll preceded by the stat check. If the
current size is smaller than `lastKnownSize` (truncation or rotation) the
read starts from offset 0, otherwise from the stored `byteOffset`; the
cursor is then updated to the new offset and the current size. -/
def pollStat (file : List Char) (cur : TailCursor) : List (List Char) × TailCursor :=
  let start := if file.length < cur.lastKnownSize then 0 else cur.byteOffset
  let r := poll file start
  (r.1, { byteOffset := r.2, lastKnownSize := file.length })

/-! ### MetricsScheduler tick model -/

/-- Modelled from the spec: one timer firing for the scheduler, given by
the wall-clock time at which the timer fires and the duration of the
tick's fan-out, merge and publish work. -/
structure Tick where
  fire : Nat
  dur : Nat
deriving DecidableEq, Repr

/-- The scheduler state: the time until which the current tick's fan-out
is still running, and the published snapshots as (start, timestamp) pairs,
where the timestamp is taken when the snapshot is assembled at the end of
the fan-out. -/
structure SchedState where
  busyUntil : Nat
  published : List (Nat × Nat)
deriving DecidableEq, Repr

/-- Modelled from the spec: the single-flight tick guard. If the previous
fan-out has not finished when the timer fires, the tick is skipped and
nothing is queued or published; otherwise the tick runs from its fire
time, publishes a snapshot stamped at the end of its fan-out, and keeps
the guard busy until then. -/
def schedStep (st : SchedState) (t : Tick) : SchedState :=
  if t.fire < st.busyUntil then st
  else
    { busyUntil := t.fire + t.dur
      published := st.published ++ [(t.fire, t.fire + t.dur)] }

/-- Running the scheduler over a sequence of timer firings from the idle
initial state. -/
def schedRun (ts : List Tick) : SchedState :=
  ts.foldl schedStep { busyUntil := 0, published := [] }

/-! ### `defineConfig` from `src/define_config.ts` -/

/-- Modelled from the spec: the shape of `ServerStatsConfig`
(`src/types.ts` is not among the provided sources); the fields follow the
configuration surface named by the spec and the `defineConfig` doc
example: tick interval, transport, channel name, endpoint, collectors. -/
structure ServerStatsConfig where
  intervalMs : Nat
  transport : String
  channelName : String
  endpoint : String
  collectors : List String
deriving DecidableEq, Repr

/-- `defineConfig` from the source: returns its argument unchanged. -/
def defineConfig (config : ServerStatsConfig) : ServerStatsConfig :=
  config

/-! ### Helper lemmas about `splitComplete` -/

lemma splitComplete_no_newline : ∀ {bs : List Char}, '\n' ∉ bs → splitComplete bs = ([], bs) := by
  intro bs h
  induction bs with
  | nil => rfl
  | cons c rest ih =>
    simp only [List.mem_cons, not_or] at h
    obtain ⟨h1, h2⟩ := h
    have hc : ¬ c = '\n' := fun hEq => h1 hEq.symm
    simp [splitComplete, hc, ih h2]

lemma splitComplete_rem_no_newline : ∀ (bs : List Char), '\n' ∉ (splitComplete bs).2 := by
  intro bs
  induction bs with
  | nil => simp [splitComplete]
  | cons c rest ih =>
    by_cases hc : c = '\n'
    · simpa [splitComplete, hc] using ih
    · rcases hr : (splitComplete rest).1 with _ | ⟨l, ls⟩
      · simp only [splitComplete, hc, if_false, hr]
        simp only [List.mem_cons, not_or]
        exact ⟨fun hEq => hc hEq.symm, ih⟩
      · simpa [splitComplete, hc, hr] using ih

lemma splitComplete_nil_rem : ∀ (bs : List Char), (splitComplete bs).1 = [] → (splitComplete bs).2 = bs := by
  intro bs
  induction bs with
  | nil => intro _; rfl
  | cons c rest ih =>
    intro h1
    by_cases hc : c = '\n'
    · simp [splitComplete, hc] at h1
    · rcases hr : (splitComplete rest).1 with _ | ⟨l, ls⟩
      · simp [splitComplete, hc, hr, ih hr]
      · simp [splitComplete, hc, hr] at h1

lemma splitComplete_rem_suffix : ∀ (bs : List Char), (splitComplete bs).2 <:+ bs := by
  intro bs
  induction bs with
  | nil => exact List.suffix_refl []
  | cons c rest ih =>
    by_cases hc : c = '\n'
    · simpa [splitComplete, hc] using ih.trans (List.suffix_cons c rest)
    · rcases hr : (splitComplete rest).1 with _ | ⟨l, ls⟩
      · simp [splitComplete, hc, hr, splitComplete_nil_rem rest hr]
      · simpa [splitComplete, hc, hr] using ih.trans (List.suffix_cons c rest)

lemma splitComplete_line : ∀ (u : List Char), '\n' ∉ u → splitComplete (u ++ ['\n']) = ([u], []) := by
  intro u hu
  induction u with
  | nil => rfl
  | cons c u ih =>
    simp only [List.mem_cons, not_or] at hu
    obtain ⟨h1, h2⟩ := hu
    have hc : ¬ c = '\n' := fun hEq => h1 hEq.symm
    simp [splitComplete, hc, ih h2]

/-! ### Window lemmas -/

lemma pruneWindow_pruneWindow {now now₀ : Int} (h : now₀ ≤ now) (w : List LogEvent) :
    pruneWindow now (pruneWindow now₀ w) = pruneWindow now w := by
  simp only [pruneWindow, List.filter_filter]
  apply List.filter_congr
  intro e _
  by_cases he : now - e.time ≤ windowMs
  · have h0 : now₀ - e.time ≤ windowMs := by omega
    simp [he, h0]
  · simp [he]

/-- C1. Window correctness of `getLogStats()`: every statistic counts
exactly the events whose timestamp satisfies `now - timestamp ≤ 300000`
(split by severity class for errors and warnings), earlier pruning at any
time `now₀ ≤ now` never changes a later query, and the boundary examples
hold: an event inserted at t = 0 is counted at t = 299999 and no longer
counted at t = 300001. -/
theorem getLogStats_window_correct (now now₀ : Int) (w : List LogEvent) (h : now₀ ≤ now) :
    ((getLogStats now w).entriesLast5m
        = (w.filter fun e => decide (now - e.time ≤ windowMs)).length)
    ∧ ((getLogStats now w).errorsLast5m
        = (w.filter fun e => isErrorLevel e.level && decide (now - e.time ≤ windowMs)).length)
    ∧ ((getLogStats now w).warningsLast5m
        = (w.filter fun e => isWarnLevel e.level && decide (now - e.time ≤ windowMs)).length)
    ∧ getLogStats now (pruneWindow now₀ w) = getLogStats now w
    ∧ (getLogStats 299999 [{ time := 0, level := Severity.error }]).errorsLast5m = 1
    ∧ (getLogStats 300001 [{ time := 0, level := Severity.error }]).errorsLast5m = 0
    ∧ (getLogStats 299999 [{ time := 0, level := Severity.error }]).entriesLast5m = 1
    ∧ (getLogStats 300001 [{ time := 0, level := Severity.error }]).entriesLast5m = 0 := by
  refine ⟨rfl, ?_, ?_, ?_, by decide, by decide, by decide, by decide⟩
  · simp [getLogStats, pruneWindow, List.filter_filter]
  · simp [getLogStats, pruneWindow, List.filter_filter]
  · simp only [getLogStats]
    rw [pruneWindow_pruneWindow h]

theorem getLogStats_window_correct_witness :
    getLogStats 10 (pruneWindow 5 [{ time := 0, level := Severity.warn }])
      = getLogStats 10 [{ time := 0, level := Severity.warn }] :=
  (getLogStats_window_correct 10 5 [{ time := 0, level := Severity.warn }]
    (by decide)).2.2.2.1

/-- C2. Rate derivation: `entriesPerMinute` always equals
`entriesLast5m / 5`, including on the empty window where both are zero. -/
theorem getLogStats_rate_derivation :
    (∀ (now : Int) (w : List LogEvent),
        (getLogStats now w).entriesPerMinute
          = ((getLogStats now w).entriesLast5m : Rat) / 5)
    ∧ (getLogStats 0 ([] : List LogEvent)).entriesLast5m = 0
    ∧ (getLogStats 0 ([] : List LogEvent)).entriesPerMinute = 0 := by
  refine ⟨fun now w => rfl, rfl, ?_⟩
  show ((0 : Nat) : Rat) / 5 = 0
  norm_num

/-- C3. Degraded-source convention: for the queue, db-pool and app
collectors, every internal failure path of `collect()` returns a fragment
with exactly the metric keys of the success path and every value zero
(the error never propagates: the failure constructors model the caught
exception paths of the sources). -/
theorem collectors_zero_on_failure :
    (∀ (c : QueueCounts) (workers : Nat),
        (queueCollector.collect (.ok c workers)).map Prod.fst
          = (queueCollector.collect .failure).map Prod.fst)
    ∧ (queueCollector.collect .failure).all (fun kv => kv.2 == 0) = true
    ∧ (∀ u f p m : Option Nat,
        (dbPoolCollector.collect (.ok u f p m)).map Prod.fst
          = (dbPoolCollector.collect .failure).map Prod.fst)
    ∧ (dbPoolCollector.collect .failure).all (fun kv => kv.2 == 0) = true
    ∧ dbPoolCollector.collect .noConnection = dbPoolCollector.collect .failure
    ∧ dbPoolCollector.collect .noPool = dbPoolCollector.collect .failure
    ∧ (∀ s w e : Nat,
        (appCollector.collect (.ok s w e)).map Prod.fst
          = (appCollector.collect .failure).map Prod.fst)
    ∧ (appCollector.collect .failure).all (fun kv => kv.2 == 0) = true := by
  exact ⟨fun c workers => rfl, by decide, fun u f p m => rfl, by decide, rfl, rfl,
    fun s w e => rfl, by decide⟩

/-- C9. `getLogStreamService()` returns `null` before any `logCollector()`
call, and after any nonempty sequence of calls it returns exactly the
instance created by the most recent call (which replaced whatever earlier
consumers saw). -/
theorem getLogStreamService_latest_instance :
    getLogStreamService { nextId := 0, sharedLogStream := none } = none
    ∧ ∀ (st : LogModuleState) (ps : List String) (p : String),
        getLogStreamService (runLogCollectorCalls st (ps ++ [p]))
          = some { id := (runLogCollectorCalls st ps).nextId, logPath := p } := by
  refine ⟨rfl, fun st ps p => ?_⟩
  simp [runLogCollectorCalls, List.foldl_append, getLogStreamService, logCollectorCall]

/-- C7 (amended). The analyzer is exposed through process-wide mutable
module state: `getLogStreamService()` reads the module-level
`sharedLogStream` variable, and every `logCollector()` call overwrites
that variable with the newly created service instance. -/
theorem sharedLogStream_global_exposure :
    (∀ st : LogModuleState, getLogStreamService st = st.sharedLogStream)
    ∧ ∀ (st : LogModuleState) (p : String),
        (logCollectorCall p st).sharedLogStream
          = some { id := st.nextId, logPath := p } :=
  ⟨fun _ => rfl, fun _ _ => rfl⟩

/-- C7 counterexample: the value returned by `getLogStreamService()`
changes when `logCollector()` mutates the module-level `sharedLogStream`
variable, so the analyzer is exposed via process-wide mutable global
state, contrary to the claim. -/
theorem sharedLogStream_mutable_counterexample :
    getLogStreamService
        (logCollectorCall "logs/adonisjs.log" { nextId := 0, sharedLogStream := none })
      ≠ getLogStreamService { nextId := 0, sharedLogStream := none } := by
  decide

/-- C10. `defineConfig` is the identity on configurations: it returns its
argument unchanged, with no defaults filled in and no validation. -/
theorem defineConfig_identity : ∀ c : ServerStatsConfig, defineConfig c = c :=
  fun _ => rfl

/-! ### History buffer lemmas -/

lemma pushHistory_of_lt {α : Type} (m : Nat) (h : List α) (s : α) (hlt : h.length < m) :
    pushHistory m h s = h ++ [s] := by
  simp only [pushHistory]
  rw [if_neg]
  simp only [List.length_append, List.length_cons, List.length_nil]
  omega

lemma pushHistory_of_ge {α : Type} (m : Nat) (h : List α) (s : α) (hge : m ≤ h.length) :
    pushHistory m h s = (h ++ [s]).tail := by
  simp only [pushHistory]
  rw [if_pos]
  simp only [List.length_append, List.length_cons, List.length_nil]
  omega

lemma foldl_pushHistory_eq {α : Type} (m : Nat) :
    ∀ (xs h : List α), h.length ≤ m →
      xs.foldl (pushHistory m) h = (h ++ xs).drop (h.length + xs.length - m) := by
  intro xs
  induction xs with
  | nil =>
    intro h hle
    simp [Nat.sub_eq_zero_of_le hle]
  | cons x xs ih =>
    intro h hle
    rw [List.foldl_cons]
    rcases Nat.lt_or_ge h.length m with hlt | hge
    · rw [pushHistory_of_lt m h x hlt, ih (h ++ [x]) (by simp; omega)]
      simp only [List.append_assoc, List.singleton_append, List.length_append,
        List.length_cons, List.length_nil]
      congr 1
      omega
    · have hEq : h.length = m := Nat.le_antisymm hle hge
      rw [pushHistory_of_ge m h x hge]
      cases h with
      | nil =>
        have hm : m = 0 := by simpa using hEq.symm
        subst hm
        rw [show (([] : List α) ++ [x]).tail = [] from rfl, ih [] (by simp)]
        simp
      | cons y h0 =>
        have hL : h0.length + 1 = m := by simpa using hEq
        have htail : ((y :: h0) ++ [x]).tail = h0 ++ [x] := rfl
        rw [htail, ih (h0 ++ [x])
          (by simp only [List.length_append, List.length_cons, List.length_nil]; omega)]
        have h1 : (h0 ++ [x]) ++ xs = h0 ++ x :: xs := by simp
        have h2 : (y :: h0) ++ x :: xs = y :: (h0 ++ x :: xs) := rfl
        rw [h1, h2]
        have e1 : (h0 ++ [x]).length + xs.length - m = xs.length := by
          simp only [List.length_append, List.length_cons, List.length_nil]
          omega
        have e2 : (y :: h0).length + (x :: xs).length - m = xs.length + 1 := by
          simp only [List.length_cons]
          omega
        rw [e1, e2, List.drop_succ_cons]

/-- C8. The `useServerStats` history buffer: for every `maxHistory ≥ 1`
and every arrival sequence (initial HTTP snapshot and SSE messages alike),
the buffer holds exactly the most recent `maxHistory` arrivals in arrival
order (so it never exceeds `maxHistory` entries), and a push at capacity
evicts exactly the single oldest entry. -/
theorem pushHistory_bounded_fifo {α : Type} (m : Nat) (hm : 1 ≤ m) (xs : List α) :
    runHistory m xs = xs.drop (xs.length - m)
    ∧ (runHistory m xs).length ≤ m
    ∧ ∀ (h : List α) (s : α), h.length = m → pushHistory m h s = h.tail ++ [s] := by
  have hrun : runHistory m xs = xs.drop (xs.length - m) := by
    have h0 := foldl_pushHistory_eq m xs [] (by simp)
    simpa [runHistory] using h0
  refine ⟨hrun, ?_, ?_⟩
  · rw [hrun]
    simp only [List.length_drop]
    omega
  · intro h s hlen
    rw [pushHistory_of_ge m h s (le_of_eq hlen.symm)]
    cases h with
    | nil =>
      exfalso
      rw [← hlen] at hm
      simp at hm
    | cons y h0 => rfl

theorem pushHistory_bounded_fifo_witness :
    runHistory 2 [10, 20, 30] = [20, 30] ∧ pushHistory 2 [10, 20] 30 = [20, 30] := by
  have h := pushHistory_bounded_fifo 2 (by decide) [10, 20, 30]
  refine ⟨?_, ?_⟩
  · rw [h.1]
    exact rfl
  · rw [h.2.2 [10, 20] 30 (by decide)]
    exact rfl

/-! ### Scheduler lemmas -/

lemma schedRun_aux :
    ∀ (ts : List Tick) (st : SchedState),
      (∀ p ∈ st.published, p.2 ≤ st.busyUntil) →
      List.Pairwise (fun a b : Nat × Nat => a.2 ≤ b.1) st.published →
      List.Pairwise (fun a b : Nat × Nat => a.2 < b.2) st.published →
      (∀ t ∈ ts, 1 ≤ t.dur) →
      (∀ p ∈ (ts.foldl schedStep st).published, p.2 ≤ (ts.foldl schedStep st).busyUntil)
      ∧ List.Pairwise (fun a b : Nat × Nat => a.2 ≤ b.1) (ts.foldl schedStep st).published
      ∧ List.Pairwise (fun a b : Nat × Nat => a.2 < b.2) (ts.foldl schedStep st).published := by
  intro ts
  induction ts with
  | nil =>
    intro st h1 h2 h3 _
    exact ⟨h1, h2, h3⟩
  | cons t ts ih =>
    intro st h1 h2 h3 hdur
    rw [List.foldl_cons]
    by_cases hc : t.fire < st.busyUntil
    · have hstep : schedStep st t = st := by simp [schedStep, hc]
      rw [hstep]
      exact ih st h1 h2 h3 (fun u hu => hdur u (List.mem_cons_of_mem t hu))
    · have hbusy : st.busyUntil ≤ t.fire := Nat.le_of_not_lt hc
      have hd : 1 ≤ t.dur := hdur t (List.mem_cons_self t ts)
      have hstep : schedStep st t =
          { busyUntil := t.fire + t.dur
            published := st.published ++ [(t.fire, t.fire + t.dur)] } := by
        simp [schedStep, hc]
      rw [hstep]
      apply ih
      · intro p hp
        simp only [List.mem_append, List.mem_singleton] at hp
        rcases hp with hp | hp
        · have hb := h1 p hp
          simp only []
          omega
        · subst hp
          simp
      · rw [List.pairwise_append]
        refine ⟨h2, by simp, ?_⟩
        intro a ha b hb
        simp only [List.mem_singleton] at hb
        subst hb
        have hb := h1 a ha
        simp only []
        omega
      · rw [List.pairwise_append]
        refine ⟨h3, by simp, ?_⟩
        intro a ha b hb
        simp only [List.mem_singleton] at hb
        subst hb
        have hb := h1 a ha
        simp only []
        omega
      · exact fun u hu => hdur u (List.mem_cons_of_mem t hu)

/-- C4. Scheduler tick discipline: a timer firing while the previous
fan-out is still running is skipped outright (the state is unchanged, so
nothing is queued and no second tick runs concurrently), and over any run
with strictly increasing timer fire times and fan-outs of nonzero
duration, the published snapshots are pairwise non-overlapping
(each tick's end is at most the next executed tick's start) and their
timestamps are strictly increasing, with no duplicates or reordering. -/
theorem scheduler_no_overlap_strict_timestamps (ts : List Tick)
    (hdur : ∀ t ∈ ts, 1 ≤ t.dur)
    (_hfire : List.Pairwise (fun a b : Tick => a.fire < b.fire) ts) :
    (∀ (st : SchedState) (t : Tick), t.fire < st.busyUntil → schedStep st t = st)
    ∧ List.Pairwise (fun a b : Nat × Nat => a.2 ≤ b.1) (schedRun ts).published
    ∧ List.Pairwise (fun a b : Nat × Nat => a.2 < b.2) (schedRun ts).published := by
  have h := schedRun_aux ts { busyUntil := 0, published := [] }
    (by simp) (by simp) (by simp) hdur
  exact ⟨fun st t hc => by simp [schedStep, hc], h.2.1, h.2.2⟩

theorem scheduler_no_overlap_witness :
    List.Pairwise (fun a b : Nat × Nat => a.2 ≤ b.1)
        (schedRun [{ fire := 0, dur := 5 }, { fire := 3, dur := 1 },
          { fire := 10, dur := 2 }]).published
    ∧ List.Pairwise (fun a b : Nat × Nat => a.2 < b.2)
        (schedRun [{ fire := 0, dur := 5 }, { fire := 3, dur := 1 },
          { fire := 10, dur := 2 }]).published
    ∧ schedStep { busyUntil := 5, published := [] } { fire := 3, dur := 1 }
        = { busyUntil := 5, published := [] } := by
  have h := scheduler_no_overlap_strict_timestamps
    [{ fire := 0, dur := 5 }, { fire := 3, dur := 1 }, { fire := 10, dur := 2 }]
    (by decide) (by decide)
  exact ⟨h.2.1, h.2.2, h.1 _ _ (by decide)⟩

/-- C5. Tail-cursor line discipline: the cursor advances only past
complete lines. Polling again without new bytes consumes nothing and
leaves the offset unchanged (idempotence, so lines are never re-counted),
and a line written in two halves across two polls parses as exactly one
LogEvent — the first poll consumes nothing, and the second poll yields the
single joined line (not zero events and not two). -/
theorem poll_partial_line_and_idempotent :
    (∀ (file : List Char) (off : Nat),
        poll file (poll file off).2 = ([], (poll file off).2))
    ∧ ∀ (pre s t : List Char) (e : LogEvent) (parse : List Char → Option LogEvent),
        '\n' ∉ s → '\n' ∉ t → parse (s ++ t) = some e →
          (poll (pre ++ s) pre.length).1.filterMap parse = []
          ∧ (poll (pre ++ s) pre.length).2 = pre.length
          ∧ (poll ((pre ++ s) ++ (t ++ ['\n'])) pre.length).1.filterMap parse = [e]
          ∧ (poll ((pre ++ s) ++ (t ++ ['\n'])) pre.length).2
              = ((pre ++ s) ++ (t ++ ['\n'])).length := by
  constructor
  · intro file off
    have hrem := splitComplete_rem_no_newline (file.drop off)
    have hsuf : (splitComplete (file.drop off)).2 <:+ file :=
      (splitComplete_rem_suffix (file.drop off)).trans (List.drop_suffix off file)
    have hdropEq : file.drop (file.length - (splitComplete (file.drop off)).2.length)
        = (splitComplete (file.drop off)).2 := (List.suffix_iff_eq_drop.mp hsuf).symm
    simp only [poll]
    rw [hdropEq, splitComplete_no_newline hrem]
  · intro pre s t e parse hs ht hparse
    have hdrop1 : (pre ++ s).drop pre.length = s := List.drop_left pre s
    have hsplit1 : splitComplete s = ([], s) := splitComplete_no_newline hs
    have hdrop2 : ((pre ++ s) ++ (t ++ ['\n'])).drop pre.length = s ++ (t ++ ['\n']) := by
      rw [List.append_assoc]
      exact List.drop_left pre (s ++ (t ++ ['\n']))
    have hnost : '\n' ∉ s ++ t := by
      simp only [List.mem_append, not_or]
      exact ⟨hs, ht⟩
    have hsplit2 : splitComplete (s ++ (t ++ ['\n'])) = ([s ++ t], []) := by
      have hline := splitComplete_line (s ++ t) hnost
      rw [List.append_assoc] at hline
      exact hline
    refine ⟨?_, ?_, ?_, ?_⟩
    · simp only [poll, hdrop1, hsplit1]
      rfl
    · simp only [poll, hdrop1, hsplit1, List.length_append]
      omega
    · simp only [poll, hdrop2, hsplit2]
      simp [List.filterMap_cons, hparse]
    · simp only [poll, hdrop2, hsplit2]
      simp

theorem poll_partial_line_witness :
    (poll (['x', '\n'] ++ ['a']) (['x', '\n'] : List Char).length).1.filterMap
        (fun l => if l = ['a', 'b'] then some (LogEvent.mk 7 Severity.info) else none)
      = []
    ∧ (poll (['x', '\n'] ++ ['a']) (['x', '\n'] : List Char).length).2
        = (['x', '\n'] : List Char).length
    ∧ (poll ((['x', '\n'] ++ ['a']) ++ (['b'] ++ ['\n'])) (['x', '\n'] : List Char).length).1.filterMap
        (fun l => if l = ['a', 'b'] then some (LogEvent.mk 7 Severity.info) else none)
      = [LogEvent.mk 7 Severity.info]
    ∧ (poll ((['x', '\n'] ++ ['a']) ++ (['b'] ++ ['\n'])) (['x', '\n'] : List Char).length).2
        = ((['x', '\n'] ++ ['a']) ++ (['b'] ++ ['\n'])).length :=
  poll_partial_line_and_idempotent.2 ['x', '\n'] ['a'] ['b']
    (LogEvent.mk 7 Severity.info)
    (fun l => if l = ['a', 'b'] then some (LogEvent.mk 7 Severity.info) else none)
    (by decide) (by decide) (by decide)

/-- C6. Truncation handling: when the file's current size is smaller than
the stored `lastKnownSize`, the poll reads from offset 0, so the lines it
yields are exactly the complete lines of the new content, and the cursor
is rebuilt from the new file alone. -/
theorem pollStat_truncation_reset (file : List Char) (cur : TailCursor)
    (h : file.length < cur.lastKnownSize) :
    (pollStat file cur).1 = (splitComplete file).1
    ∧ (pollStat file cur).2.byteOffset = file.length - (splitComplete file).2.length
    ∧ (pollStat file cur).2.lastKnownSize = file.length := by
  simp only [pollStat, poll, if_pos h, List.drop_zero]
  exact ⟨trivial, trivial, trivial⟩

theorem pollStat_truncation_reset_witness :
    (pollStat ['a', '\n', 'b'] { byteOffset := 3, lastKnownSize := 10 }).1
        = (splitComplete ['a', '\n', 'b']).1
    ∧ (pollStat ['a', '\n', 'b'] { byteOffset := 3, lastKnownSize := 10 }).2.byteOffset
        = (['a', '\n', 'b'] : List Char).length - (splitComplete ['a', '\n', 'b']).2.length
    ∧ (pollStat ['a', '\n', 'b'] { byteOffset := 3, lastKnownSize := 10 }).2.lastKnownSize
        = (['a', '\n', 'b'] : List Char).length :=
  pollStat_truncation_reset ['a', '\n', 'b'] { byteOffset := 3, lastKnownSize := 10 }
    (by decide)
